import Mathlib

/-!
Shallow embedding of the evmsled dispatcher generator (src/main.rs): exact
256-bit byte-array arithmetic (mul_256, shr_256), the collision check
(check_magic_numbers), the randomized magic-number search (find_magic_numbers,
with the random multiplier draws supplied as an explicit stream), and the
dispatch-table offset/gap layout from main. A [u8; 32] value is a list of 32
natural numbers below 256, least-significant byte first.
-/

/-- Little-endian value of a byte list: bytesToNat [b0, b1, ...] = b0 + 256*b1 + .... -/
def bytesToNat : List Nat → Nat
  | [] => 0
  | b :: bs => b + 256 * bytesToNat bs

/-- The k low-order little-endian base-256 digits of m. -/
def natToBytes : Nat → Nat → List Nat
  | 0, _ => []
  | k + 1, m => m % 256 :: natToBytes k (m / 256)

/-- The [u8; 32] type invariant: exactly 32 bytes, each below 256. -/
def Bytes32 (l : List Nat) : Prop := l.length = 32 ∧ ∀ x ∈ l, x < 256

instance : DecidablePred Bytes32 := fun l => by unfold Bytes32; infer_instance

/-- u32_to_256: a selector as 32 little-endian bytes (x.to_le_bytes in the low
4 bytes, zeros above). -/
def u32_to_256 (x : Nat) : List Nat := natToBytes 4 x ++ List.replicate 28 0

/-- Inner loop of mul_256 over j (fuel = 32 - i iterations): partial products
of a[i] against b[j] with byte-wise carry; the carry remaining when the write
position would pass byte 31 is dropped (truncation modulo 2^256). -/
def mulInner (ai : Nat) (b : List Nat) (i : Nat) : Nat → Nat → Nat → List Nat → List Nat
  | _, _, 0, result => result
  | j, carry, fuel + 1, result =>
    let prod := ai * b.getD j 0 + result.getD (i + j) 0 + carry
    mulInner ai b i (j + 1) (prod >>> 8) fuel (result.set (i + j) (prod &&& 255))

/-- mul_256: multiplies two 256-bit numbers (32 little-endian bytes each),
returning the lower 32 bytes (mod 2^256). -/
def mul_256 (a b : List Nat) : List Nat :=
  (List.range 32).foldl (fun result i => mulInner (a.getD i 0) b i 0 0 (32 - i) result)
    (List.replicate 32 0)

/-- shr_256: shifts a 256-bit number right by n bits. Result byte i combines
source bytes i + n/8 and i + n/8 + 1, both guarded to stay inside the 32
bytes; the sub-byte left shift is a u8 shift, truncated modulo 256. -/
def shr_256 (val : List Nat) (n : Nat) : List Nat :=
  (List.range 32).map fun i =>
    let byte_shift := n / 8
    let bit_shift := n % 8
    if i + byte_shift < 32 then
      let v := val.getD (i + byte_shift) 0 >>> bit_shift
      let v2 := if 0 < bit_shift ∧ i + byte_shift + 1 < 32 then
          v ||| ((val.getD (i + byte_shift + 1) 0 <<< (8 - bit_shift)) % 256)
        else v
      v2 &&& 255
    else 0

/-- The byte a selector is mapped to: lowest byte of (selector * q) >> shift. -/
def derivedByte (q : List Nat) (shift x : Nat) : Nat :=
  (shr_256 (mul_256 (u32_to_256 x) q) shift).getD 0 0

/-- check_magic_numbers recursion: seen result bytes accumulate; a repeated
byte returns false immediately (HashSet insert reporting a duplicate). -/
def checkFrom (q : List Nat) (shift : Nat) : List Nat → List Nat → Bool
  | _, [] => true
  | seen, x :: xs =>
    let b := derivedByte q shift x
    if b ∈ seen then false else checkFrom q shift (b :: seen) xs

/-- check_magic_numbers: true iff all selectors map to pairwise distinct bytes. -/
def check_magic_numbers (q : List Nat) (shift : Nat) (values : List Nat) : Bool :=
  checkFrom q shift [] values

/-- Maximum derived byte over the selectors, accumulated from 0 as in the body
of find_magic_numbers. -/
def max_byte (q : List Nat) (shift : Nat) (values : List Nat) : Nat :=
  values.foldl (fun m x => max m (derivedByte q shift x)) 0

/-- State of find_magic_numbers: best solution so far, its maximum byte
(initially 255), and the trace of maximum bytes reported at each best-so-far
update (one entry per improvement println). -/
structure SearchState where
  best : Option (List Nat × Nat)
  bestMax : Nat
  trace : List Nat
deriving Repr, DecidableEq

/-- The shift sweep (0..=248).step_by(8). -/
def shiftList : List Nat := (List.range 32).map fun k => k * 8

/-- One inner-loop iteration of find_magic_numbers at a given shift: if the
candidate is collision-free and its maximum byte beats the best so far, record
it and log the improvement. -/
def stepShift (values : List Nat) (q : List Nat) (s : SearchState) (shift : Nat) : SearchState :=
  if check_magic_numbers q shift values then
    let mb := max_byte q shift values
    if mb < s.bestMax then { best := some (q, shift), bestMax := mb, trace := s.trace ++ [mb] }
    else s
  else s

/-- One outer-loop iteration: sweep all 32 shifts for one multiplier. -/
def stepMultiplier (values : List Nat) (q : List Nat) (s : SearchState) : SearchState :=
  shiftList.foldl (stepShift values q) s

/-- The while loop of find_magic_numbers. The attempts counter is incremented
once per shift inside the inner loop, but the loop condition is consulted only
between multipliers, so each outer iteration advances it by 32. The multiplier
drawn by random_256bit at outer iteration k is stream k. The fuel argument
only bounds the recursion depth; maxAttempts iterations always suffice since
every iteration consumes at least one unit of budget. -/
def searchGo (values : List Nat) (stream : Nat → List Nat) (maxAttempts : Nat) :
    Nat → Nat → Nat → SearchState → SearchState × Nat
  | 0, _, attempts, s => (s, attempts)
  | fuel + 1, iter, attempts, s =>
    if attempts < maxAttempts then
      searchGo values stream maxAttempts fuel (iter + 1) (attempts + 32)
        (stepMultiplier values (stream iter) s)
    else (s, attempts)

/-- find_magic_numbers: the best (q, shift) found within the attempt budget. -/
def find_magic_numbers (values : List Nat) (stream : Nat → List Nat) (maxAttempts : Nat) :
    Option (List Nat × Nat) :=
  (searchGo values stream maxAttempts maxAttempts 0 0 ⟨none, 255, []⟩).1.best

/-- Total number of elementary (multiplier, shift) evaluations performed: the
final value of the attempts counter. -/
def searchAttempts (values : List Nat) (stream : Nat → List Nat) (maxAttempts : Nat) : Nat :=
  (searchGo values stream maxAttempts maxAttempts 0 0 ⟨none, 255, []⟩).2

/-- The best-so-far update trace of one run. -/
def searchTrace (values : List Nat) (stream : Nat → List Nat) (maxAttempts : Nat) : List Nat :=
  (searchGo values stream maxAttempts maxAttempts 0 0 ⟨none, 255, []⟩).1.trace

/-- Lookup in an insertion-ordered association list where a later insert
overwrites an earlier one with the same key (HashMap insert then get). -/
def mapGet (entries : List (Nat × Nat)) (k : Nat) : Option Nat :=
  ((entries.filter fun p => p.1 == k).getLast?).map fun p => p.2

/-- index_to_address: byte value to function address, keyed by the derived
byte of each (selector, address) pair. -/
def index_to_address (pairs : List (Nat × Nat)) (db : Nat → Nat) (i : Nat) : Option Nat :=
  mapGet (pairs.map fun p => (db p.1, p.2)) i

/-- index_to_selector: byte value back to the selector that produced it. -/
def index_to_selector (pairs : List (Nat × Nat)) (db : Nat → Nat) (i : Nat) : Option Nat :=
  mapGet (pairs.map fun p => (db p.1, p.1)) i

/-- dispatcher_offsets: for every byte value 0..=255 that has an address, the
tuple (offset, byte, selector, address) with offset = 78 + byte * 6. -/
def dispatcherOffsets (pairs : List (Nat × Nat)) (db : Nat → Nat) :
    List (Nat × Nat × Nat × Nat) :=
  (List.range 256).filterMap fun i =>
    match index_to_address pairs db i with
    | some addr => some (78 + i * 6, i, (index_to_selector pairs db i).getD 0, addr)
    | none => none

/-- The sort_by_key(offset) call (a stable merge sort, as in Rust). -/
def sortedOffsets (pairs : List (Nat × Nat)) (db : Nat → Nat) : List (Nat × Nat × Nat × Nat) :=
  (dispatcherOffsets pairs db).mergeSort fun a b => decide (a.1 ≤ b.1)

/-- The gap-reporting loop: walk the sorted dispatcher entries keeping the
current offset; a jump in offsets is reported as one contiguous gap range,
and the current offset then moves past the 6-byte slot just printed. -/
def gapRanges : Nat → List (Nat × Nat × Nat × Nat) → List (Nat × Nat)
  | _, [] => []
  | current, e :: rest =>
    (if current < e.1 then [(current, e.1)] else []) ++ gapRanges (e.1 + 6) rest

/-- Byte value x is occupied by some dispatcher entry. -/
def occupiedByte (entries : List (Nat × Nat × Nat × Nat)) (x : Nat) : Bool :=
  entries.any fun e => e.2.1 == x

/-- Byte value x falls inside one of the reported gap ranges (its slot offset
78 + 6x lies in the half-open offset range). -/
def inGapRanges (gaps : List (Nat × Nat)) (x : Nat) : Bool :=
  gaps.any fun g => decide (g.1 ≤ 78 + 6 * x) && decide (78 + 6 * x < g.2)

/-! ### Byte-list arithmetic helper lemmas -/

theorem bytesToNat_cons (b : Nat) (bs : List Nat) :
    bytesToNat (b :: bs) = b + 256 * bytesToNat bs := rfl

theorem bytesToNat_lt (l : List Nat) (h : ∀ x ∈ l, x < 256) :
    bytesToNat l < 256 ^ l.length := by
  induction l with
  | nil => simp [bytesToNat]
  | cons b bs ih =>
    have hb := h b (by simp)
    have hbs := ih (fun x hx => h x (by simp [hx]))
    simp only [bytesToNat_cons, List.length_cons]
    calc b + 256 * bytesToNat bs < 256 + 256 * bytesToNat bs := by omega
      _ = 256 * (bytesToNat bs + 1) := by ring
      _ ≤ 256 * 256 ^ bs.length := Nat.mul_le_mul_left _ hbs
      _ = 256 ^ (bs.length + 1) := by ring

theorem getD_lt_256 (l : List Nat) (k : Nat) (h : ∀ x ∈ l, x < 256) :
    l.getD k 0 < 256 := by
  rcases Nat.lt_or_ge k l.length with hk | hk
  · rw [List.getD_eq_getElem l 0 hk]
    exact h _ (List.getElem_mem hk)
  · rw [List.getD_eq_default l 0 hk]
    omega

theorem bytesToNat_take_drop (j : Nat) (l : List Nat) :
    bytesToNat l = bytesToNat (l.take j) + 256 ^ j * bytesToNat (l.drop j) := by
  induction j generalizing l with
  | zero => simp [bytesToNat]
  | succ j ih =>
    cases l with
    | nil => simp [bytesToNat]
    | cons b bs =>
      simp only [List.take_succ_cons, List.drop_succ_cons, bytesToNat_cons]
      rw [ih bs]
      ring

theorem bytesToNat_drop (l : List Nat) (k : Nat) (h : ∀ x ∈ l, x < 256) :
    bytesToNat (l.drop k) = bytesToNat l / 256 ^ k := by
  induction k generalizing l with
  | zero => simp
  | succ k ih =>
    cases l with
    | nil => simp [bytesToNat]
    | cons b bs =>
      have hb := h b (by simp)
      rw [List.drop_succ_cons, ih bs (fun x hx => h x (by simp [hx])), bytesToNat_cons,
        show (256:Nat) ^ (k+1) = 256 * 256 ^ k by ring, ← Nat.div_div_eq_div_mul]
      congr 1
      rw [Nat.mul_comm 256 (bytesToNat bs),
        Nat.add_mul_div_right _ _ (by norm_num : (0:Nat) < 256),
        Nat.div_eq_of_lt hb, Nat.zero_add]

theorem natToBytes_length (k m : Nat) : (natToBytes k m).length = k := by
  induction k generalizing m with
  | zero => rfl
  | succ k ih => simp [natToBytes, ih]

theorem natToBytes_lt (k m : Nat) : ∀ x ∈ natToBytes k m, x < 256 := by
  induction k generalizing m with
  | zero => simp [natToBytes]
  | succ k ih =>
    intro x hx
    simp only [natToBytes, List.mem_cons] at hx
    rcases hx with h | h
    · omega
    · exact ih _ x h

theorem bytesToNat_natToBytes (k m : Nat) :
    bytesToNat (natToBytes k m) = m % 256 ^ k := by
  induction k generalizing m with
  | zero => simp [natToBytes, bytesToNat, Nat.mod_one]
  | succ k ih =>
    rw [natToBytes, bytesToNat_cons, ih,
      show (256:Nat) ^ (k+1) = 256 * 256 ^ k by ring, Nat.mod_mul]

theorem bytesToNat_inj (l l2 : List Nat) (h1 : ∀ x ∈ l, x < 256) (h2 : ∀ x ∈ l2, x < 256)
    (hlen : l.length = l2.length) (hv : bytesToNat l = bytesToNat l2) : l = l2 := by
  induction l generalizing l2 with
  | nil => cases l2 with
    | nil => rfl
    | cons c cs => simp at hlen
  | cons b bs ih =>
    cases l2 with
    | nil => simp at hlen
    | cons c cs =>
      have hb := h1 b (by simp)
      have hc := h2 c (by simp)
      simp only [bytesToNat_cons] at hv
      have hbc : b = c := by omega
      have hvs : bytesToNat bs = bytesToNat cs := by omega
      have := ih cs (fun x hx => h1 x (List.mem_cons_of_mem b hx))
        (fun x hx => h2 x (List.mem_cons_of_mem c hx)) (by simpa using hlen) hvs
      rw [hbc, this]

theorem bytesToNat_set (l : List Nat) (k v : Nat) (h : k < l.length) :
    bytesToNat (l.set k v) + l.getD k 0 * 256 ^ k = bytesToNat l + v * 256 ^ k := by
  induction l generalizing k with
  | nil => simp at h
  | cons b bs ih =>
    cases k with
    | zero =>
      simp only [List.set_cons_zero, bytesToNat_cons, List.getD_cons_zero, pow_zero, mul_one]
      omega
    | succ k =>
      simp only [List.set_cons_succ, bytesToNat_cons, List.getD_cons_succ]
      have hk : k < bs.length := by simpa using h
      have key := ih k hk
      have e1 : bs.getD k 0 * 256 ^ (k+1) = 256 * (bs.getD k 0 * 256 ^ k) := by ring
      have e2 : v * 256 ^ (k+1) = 256 * (v * 256 ^ k) := by ring
      rw [e1, e2]
      omega

/-! ### mul_256 correctness -/

theorem bytesToNat_nil : bytesToNat [] = 0 := rfl

theorem and_255_eq (p : Nat) : p &&& 255 = p % 256 := by
  have h := Nat.and_pow_two_sub_one_eq_mod p 8
  norm_num at h
  exact h

theorem shiftRight_8_eq (p : Nat) : p >>> 8 = p / 256 := by
  simp [Nat.shiftRight_eq_div_pow]

theorem modEq_add_mul_right (x k N : Nat) : x ≡ x + k * N [MOD N] := by
  show x % N = (x + k * N) % N
  rw [Nat.add_mul_mod_self_right]

theorem mulInner_length (ai : Nat) (b : List Nat) (i : Nat) :
    ∀ (fuel j carry : Nat) (result : List Nat),
    (mulInner ai b i j carry fuel result).length = result.length := by
  intro fuel
  induction fuel with
  | zero => intro j carry result; rfl
  | succ fuel ih =>
    intro j carry result
    simp only [mulInner]
    rw [ih]
    exact List.length_set result _ _

theorem mulInner_bounds (ai : Nat) (b : List Nat) (i : Nat) :
    ∀ (fuel j carry : Nat) (result : List Nat), (∀ x ∈ result, x < 256) →
    ∀ x ∈ mulInner ai b i j carry fuel result, x < 256 := by
  intro fuel
  induction fuel with
  | zero => intro j carry result h; exact h
  | succ fuel ih =>
    intro j carry result h
    simp only [mulInner]
    apply ih
    intro x hx
    rcases List.mem_or_eq_of_mem_set hx with h1 | h1
    · exact h x h1
    · rw [h1, and_255_eq]
      exact Nat.mod_lt _ (by norm_num)

theorem mulInner_val (ai : Nat) (b : List Nat) (i : Nat) (hb : b.length = 32) :
    ∀ (fuel j carry : Nat) (result : List Nat), result.length = 32 → i + j + fuel = 32 →
    bytesToNat (mulInner ai b i j carry fuel result) ≡
      bytesToNat result + carry * 256 ^ (i + j) +
        ai * 256 ^ (i + j) * bytesToNat ((b.drop j).take fuel) [MOD 256 ^ 32] := by
  intro fuel
  induction fuel with
  | zero =>
    intro j carry result hr hsum
    have hij : i + j = 32 := by omega
    simp only [mulInner, List.take_zero, bytesToNat_nil, Nat.mul_zero, Nat.add_zero, hij]
    exact modEq_add_mul_right _ carry _
  | succ fuel ih =>
    intro j carry result hr hsum
    have hj : j < b.length := by omega
    have hij : i + j < result.length := by omega
    simp only [mulInner]
    set p := ai * b.getD j 0 + result.getD (i + j) 0 + carry with hp
    rw [shiftRight_8_eq, and_255_eq]
    have ih2 := ih (j + 1) (p / 256) (result.set (i + j) (p % 256)) (by simp [hr]) (by omega)
    have hbj : bytesToNat ((b.drop j).take (fuel + 1)) =
        b.getD j 0 + 256 * bytesToNat ((b.drop (j + 1)).take fuel) := by
      rw [List.drop_eq_getElem_cons hj, List.take_succ_cons, bytesToNat_cons,
        List.getD_eq_getElem b 0 hj]
    have hset := bytesToNat_set result (i + j) (p % 256) hij
    have hmd : p % 256 + 256 * (p / 256) = p := Nat.mod_add_div p 256
    have keyZ : (bytesToNat (result.set (i + j) (p % 256)) : ℤ) +
          (p / 256 : Nat) * (256 : ℤ) ^ (i + (j + 1)) +
          (ai : ℤ) * (256 : ℤ) ^ (i + (j + 1)) * bytesToNat ((b.drop (j + 1)).take fuel) +
          (result.getD (i + j) 0 : ℤ) * (256 : ℤ) ^ (i + j) =
        (bytesToNat result : ℤ) + (carry : ℤ) * (256 : ℤ) ^ (i + j) +
          (ai : ℤ) * (256 : ℤ) ^ (i + j) * bytesToNat ((b.drop j).take (fuel + 1)) +
          (result.getD (i + j) 0 : ℤ) * (256 : ℤ) ^ (i + j) := by
      have hset_z : (bytesToNat (result.set (i + j) (p % 256)) : ℤ) +
          (result.getD (i + j) 0 : ℤ) * (256 : ℤ) ^ (i + j) =
          (bytesToNat result : ℤ) + ((p % 256 : Nat) : ℤ) * (256 : ℤ) ^ (i + j) := by
        exact_mod_cast hset
      have hmd_z : ((p % 256 : Nat) : ℤ) + 256 * ((p / 256 : Nat) : ℤ) = (p : ℤ) := by
        exact_mod_cast hmd
      have hp_z : (p : ℤ) = (ai : ℤ) * (b.getD j 0 : ℤ) + (result.getD (i + j) 0 : ℤ) +
          (carry : ℤ) := by exact_mod_cast hp
      rw [hbj]
      push_cast at hset_z hmd_z hp_z ⊢
      linear_combination hset_z + (256 : ℤ) ^ (i + j) * hmd_z + (256 : ℤ) ^ (i + j) * hp_z
    have key : bytesToNat (result.set (i + j) (p % 256)) + (p / 256) * 256 ^ (i + (j + 1)) +
          ai * 256 ^ (i + (j + 1)) * bytesToNat ((b.drop (j + 1)).take fuel) +
          result.getD (i + j) 0 * 256 ^ (i + j) =
        bytesToNat result + carry * 256 ^ (i + j) +
          ai * 256 ^ (i + j) * bytesToNat ((b.drop j).take (fuel + 1)) +
          result.getD (i + j) 0 * 256 ^ (i + j) := by
      exact_mod_cast keyZ
    have key2 := Nat.add_right_cancel key
    rw [← key2]
    exact ih2

theorem bytesToNat_take_succ (a : List Nat) :
    ∀ k, bytesToNat (a.take (k + 1)) = bytesToNat (a.take k) + a.getD k 0 * 256 ^ k := by
  induction a with
  | nil => intro k; simp [bytesToNat]
  | cons b bs ih =>
    intro k
    cases k with
    | zero => simp [bytesToNat_cons, bytesToNat_nil, bytesToNat]
    | succ k =>
      simp only [List.take_succ_cons, bytesToNat_cons, List.getD_cons_succ, ih k]
      ring

theorem sum_getD_range (a : List Nat) :
    ∀ k, ((List.range k).map fun i => a.getD i 0 * 256 ^ i).sum = bytesToNat (a.take k) := by
  intro k
  induction k with
  | zero => simp [bytesToNat]
  | succ k ih =>
    rw [List.range_succ, List.map_append, List.sum_append, ih, bytesToNat_take_succ]
    simp

theorem mulStep_val (a b : List Nat) (hb : b.length = 32) (i : Nat) (hi : i < 32)
    (result : List Nat) (hr : result.length = 32) :
    bytesToNat (mulInner (a.getD i 0) b i 0 0 (32 - i) result) ≡
      bytesToNat result + a.getD i 0 * 256 ^ i * bytesToNat b [MOD 256 ^ 32] := by
  have h1 := mulInner_val (a.getD i 0) b i hb (32 - i) 0 0 result hr (by omega)
  simp only [Nat.add_zero, Nat.zero_mul, List.drop_zero] at h1
  refine h1.trans ?_
  have hpow : (256 : Nat) ^ 32 = 256 ^ i * 256 ^ (32 - i) := by
    rw [← pow_add]
    congr 1
    omega
  have he : bytesToNat result + a.getD i 0 * 256 ^ i * bytesToNat b
      = bytesToNat result + a.getD i 0 * 256 ^ i * bytesToNat (b.take (32 - i))
        + (a.getD i 0 * bytesToNat (b.drop (32 - i))) * 256 ^ 32 := by
    rw [bytesToNat_take_drop (32 - i) b, hpow]
    ring
  rw [he]
  exact modEq_add_mul_right _ _ _

theorem mulFold_val (a b : List Nat) (hb : b.length = 32) :
    ∀ (l : List Nat), (∀ i ∈ l, i < 32) → ∀ (result : List Nat), result.length = 32 →
    bytesToNat (l.foldl (fun result i => mulInner (a.getD i 0) b i 0 0 (32 - i) result) result) ≡
      bytesToNat result + ((l.map fun i => a.getD i 0 * 256 ^ i).sum) * bytesToNat b
        [MOD 256 ^ 32] := by
  intro l
  induction l with
  | nil =>
    intro _ result hr
    simpa using Nat.ModEq.refl (bytesToNat result)
  | cons i l ihl =>
    intro hmem result hr
    rw [List.foldl_cons]
    have hstep := mulStep_val a b hb i (hmem i (by simp)) result hr
    have hlen2 : (mulInner (a.getD i 0) b i 0 0 (32 - i) result).length = 32 := by
      rw [mulInner_length]
      exact hr
    have ih2 := ihl (fun x hx => hmem x (by simp [hx])) _ hlen2
    refine ih2.trans ?_
    refine (hstep.add_right ((l.map fun i => a.getD i 0 * 256 ^ i).sum * bytesToNat b)).trans ?_
    have he : bytesToNat result + a.getD i 0 * 256 ^ i * bytesToNat b +
          (l.map fun i => a.getD i 0 * 256 ^ i).sum * bytesToNat b
        = bytesToNat result + (((i :: l).map fun i => a.getD i 0 * 256 ^ i).sum) * bytesToNat b := by
      rw [List.map_cons, List.sum_cons]
      ring
    rw [he]

theorem mul_256_val (a b : List Nat) (ha : a.length = 32) (hb : b.length = 32) :
    bytesToNat (mul_256 a b) ≡ bytesToNat a * bytesToNat b [MOD 256 ^ 32] := by
  have h := mulFold_val a b hb (List.range 32)
    (fun i hi => List.mem_range.mp hi) (List.replicate 32 0) (by simp)
  rw [sum_getD_range] at h
  have hz : bytesToNat (List.replicate 32 0) = 0 := by decide
  have ht : a.take 32 = a := by
    rw [← ha]
    exact List.take_length a
  rw [hz, ht, Nat.zero_add] at h
  exact h

theorem mul_256_valid (a b : List Nat) : Bytes32 (mul_256 a b) := by
  rw [mul_256]
  have key : ∀ (l : List Nat) (result : List Nat), result.length = 32 →
      (∀ x ∈ result, x < 256) →
      (l.foldl (fun result i => mulInner (a.getD i 0) b i 0 0 (32 - i) result) result).length = 32 ∧
      ∀ x ∈ l.foldl (fun result i => mulInner (a.getD i 0) b i 0 0 (32 - i) result) result,
        x < 256 := by
    intro l
    induction l with
    | nil => intro result h1 h2; exact ⟨h1, h2⟩
    | cons i l ih =>
      intro result h1 h2
      rw [List.foldl_cons]
      exact ih _ (by rw [mulInner_length]; exact h1) (mulInner_bounds _ _ _ _ _ _ _ h2)
  have h := key (List.range 32) (List.replicate 32 0) (by simp)
    (by intro x hx; rw [List.eq_of_mem_replicate hx]; omega)
  exact ⟨h.1, h.2⟩

theorem mul_256_correct (a b : List Nat) (ha : Bytes32 a) (hb : Bytes32 b) :
    mul_256 a b = natToBytes 32 ((bytesToNat a * bytesToNat b) % 2 ^ 256) := by
  have hN : (2 : Nat) ^ 256 = 256 ^ 32 := by norm_num
  have hval := mul_256_val a b ha.1 hb.1
  have hvalid := mul_256_valid a b
  refine bytesToNat_inj _ _ hvalid.2 (natToBytes_lt _ _) ?_ ?_
  · rw [hvalid.1, natToBytes_length]
  · rw [bytesToNat_natToBytes, hN, Nat.mod_mod_of_dvd _ dvd_rfl]
    have hlt : bytesToNat (mul_256 a b) < 256 ^ 32 := by
      have h32 := bytesToNat_lt _ hvalid.2
      rwa [hvalid.1] at h32
    calc bytesToNat (mul_256 a b) = bytesToNat (mul_256 a b) % 256 ^ 32 :=
        (Nat.mod_eq_of_lt hlt).symm
      _ = (bytesToNat a * bytesToNat b) % 256 ^ 32 := hval

/-! ### shr_256 correctness -/

theorem natToBytes_eq_map (k : Nat) :
    ∀ m, natToBytes k m = (List.range k).map fun i => m / 256 ^ i % 256 := by
  induction k with
  | zero => intro m; rfl
  | succ k ih =>
    intro m
    rw [List.range_succ_eq_map, List.map_cons, List.map_map, natToBytes, ih (m / 256)]
    congr 1
    · simp
    · apply List.map_congr_left
      intro i hi
      simp only [Function.comp_apply]
      rw [Nat.div_div_eq_div_mul]
      congr 2
      rw [pow_succ']

theorem shr_256_correct (val : List Nat) (n : Nat) (hv : Bytes32 val) :
    shr_256 val n = natToBytes 32 (bytesToNat val / 2 ^ n) := by
  rw [shr_256, natToBytes_eq_map]
  apply List.map_congr_left
  intro i hi
  have hi32 : i < 32 := List.mem_range.mp hi
  dsimp only
  have hVlt : bytesToNat val < 256 ^ 32 := by
    have h := bytesToNat_lt val hv.2
    rwa [hv.1] at h
  have hrhs : bytesToNat val / 2 ^ n / 256 ^ i =
      bytesToNat val / 256 ^ (i + n / 8) / 2 ^ (n % 8) := by
    rw [Nat.div_div_eq_div_mul, Nat.div_div_eq_div_mul]
    congr 1
    rw [show (256 : Nat) = 2 ^ 8 by norm_num, ← pow_mul, ← pow_mul, ← pow_add, ← pow_add]
    congr 1
    omega
  rw [hrhs]
  by_cases hK : i + n / 8 < 32
  case neg =>
    rw [if_neg hK]
    have hz : bytesToNat val / 256 ^ (i + n / 8) = 0 := by
      apply Nat.div_eq_of_lt
      exact lt_of_lt_of_le hVlt (Nat.pow_le_pow_right (by norm_num) (by omega))
    rw [hz]
    simp
  case pos =>
    rw [if_pos hK]
    have hKlen : i + n / 8 < val.length := by rw [hv.1]; exact hK
    have hdropval : bytesToNat val / 256 ^ (i + n / 8) = bytesToNat (val.drop (i + n / 8)) :=
      (bytesToNat_drop val _ hv.2).symm
    rw [hdropval, List.drop_eq_getElem_cons hKlen, bytesToNat_cons,
      ← List.getD_eq_getElem val 0 hKlen]
    have ha : val.getD (i + n / 8) 0 < 256 := getD_lt_256 _ _ hv.2
    by_cases hK1 : i + n / 8 + 1 < 32
    case pos =>
      have hK1len : i + n / 8 + 1 < val.length := by rw [hv.1]; exact hK1
      rw [List.drop_eq_getElem_cons hK1len, bytesToNat_cons,
        ← List.getD_eq_getElem val 0 hK1len]
      have hb : val.getD (i + n / 8 + 1) 0 < 256 := getD_lt_256 _ _ hv.2
      by_cases ht0 : 0 < n % 8
      case pos =>
        rw [if_pos ⟨ht0, hK1⟩, Nat.shiftRight_eq_div_pow, Nat.shiftLeft_eq, and_255_eq]
        set t := n % 8 with htdef
        have ht8 : t < 8 := by omega
        clear_value t
        clear htdef
        have hsplit8 : (2 : Nat) ^ (8 - t) * 2 ^ t = 256 := by
          rw [← pow_add, show 8 - t + t = 8 by omega]
          norm_num
        have f1 : val.getD (i + n / 8 + 1) 0 * 2 ^ (8 - t) % 256 =
            2 ^ (8 - t) * (val.getD (i + n / 8 + 1) 0 % 2 ^ t) := by
          rw [← hsplit8, Nat.mul_comm (val.getD (i + n / 8 + 1) 0) _, Nat.mul_mod_mul_left]
        have f2 : val.getD (i + n / 8) 0 / 2 ^ t < 2 ^ (8 - t) := by
          rw [Nat.div_lt_iff_lt_mul (Nat.pos_pow_of_pos _ (by norm_num)), hsplit8]
          exact ha
        rw [f1, Nat.lor_comm, ← Nat.mul_add_lt_is_or f2 (val.getD (i + n / 8 + 1) 0 % 2 ^ t)]
        interval_cases t <;> omega
      case neg =>
        rw [if_neg (fun h => ht0 h.1), Nat.shiftRight_eq_div_pow, and_255_eq]
        have ht : n % 8 = 0 := by omega
        rw [ht]
        simp only [pow_zero, Nat.div_one]
        omega
    case neg =>
      have hdropnil : val.drop (i + n / 8 + 1) = [] := by
        rw [List.drop_eq_nil_iff, hv.1]
        omega
      rw [hdropnil, bytesToNat_nil, if_neg (fun h => hK1 h.2),
        Nat.shiftRight_eq_div_pow, and_255_eq]
      simp

/-! ### check_magic_numbers: collision characterization -/

theorem checkFrom_eq_true (q : List Nat) (shift : Nat) :
    ∀ (values seen : List Nat), checkFrom q shift seen values = true ↔
      ((values.map (derivedByte q shift)).Nodup ∧
        ∀ b ∈ values.map (derivedByte q shift), b ∉ seen) := by
  intro values
  induction values with
  | nil => intro seen; simp [checkFrom]
  | cons x xs ih =>
    intro seen
    simp only [checkFrom, List.map_cons, List.nodup_cons, List.mem_cons]
    by_cases hmem : derivedByte q shift x ∈ seen
    · rw [if_pos hmem]
      simp only [Bool.false_eq_true, false_iff]
      rintro ⟨_, hall⟩
      exact hall _ (Or.inl rfl) hmem
    · rw [if_neg hmem, ih (derivedByte q shift x :: seen)]
      constructor
      · rintro ⟨hnd, hall⟩
        refine ⟨⟨fun hx => (hall _ hx) (List.mem_cons_self _ _), hnd⟩, ?_⟩
        intro b hb
        rcases hb with he | hbm
        · rw [he]; exact hmem
        · intro hbs
          exact (hall b hbm) (List.mem_cons_of_mem _ hbs)
      · rintro ⟨⟨hnotin, hnd⟩, hall⟩
        refine ⟨hnd, ?_⟩
        intro b hbm hbc
        rcases List.mem_cons.mp hbc with he | hbs
        · exact hnotin (he ▸ hbm)
        · exact hall b (Or.inr hbm) hbs

theorem check_magic_numbers_iff_nodup (q : List Nat) (shift : Nat) (values : List Nat) :
    check_magic_numbers q shift values = true ↔
      (values.map (derivedByte q shift)).Nodup := by
  rw [check_magic_numbers, checkFrom_eq_true]
  simp

theorem check_magic_numbers_of_dup (values : List Nat) (h : ¬values.Nodup)
    (q : List Nat) (shift : Nat) : check_magic_numbers q shift values = false := by
  rw [← Bool.not_eq_true, check_magic_numbers_iff_nodup]
  exact fun hh => h hh.of_map

/-! ### The zero multiplier -/

theorem u32_to_256_valid (x : Nat) : Bytes32 (u32_to_256 x) := by
  constructor
  · rw [u32_to_256, List.length_append, natToBytes_length, List.length_replicate]
  · intro b hb
    rw [u32_to_256, List.mem_append] at hb
    rcases hb with h | h
    · exact natToBytes_lt _ _ b h
    · rw [List.eq_of_mem_replicate h]; omega

theorem derivedByte_zero_multiplier (shift x : Nat) :
    derivedByte (List.replicate 32 0) shift x = 0 := by
  rw [derivedByte]
  have hm : mul_256 (u32_to_256 x) (List.replicate 32 0) = List.replicate 32 0 := by
    rw [mul_256_correct _ _ (u32_to_256_valid x)
      (by constructor <;> simp +decide [List.eq_of_mem_replicate]),
      show bytesToNat (List.replicate 32 0) = 0 from by decide, Nat.mul_zero, Nat.zero_mod]
    decide
  rw [hm, shr_256_correct _ _ (by constructor <;> simp +decide [List.eq_of_mem_replicate]),
    show bytesToNat (List.replicate 32 0) = 0 from by decide, Nat.zero_div]
  decide

/-! ### Search loop invariants -/

theorem stepShift_inv (values q : List Nat) (s : SearchState) (sh : Nat)
    (h : ∀ qq ss, s.best = some (qq, ss) → check_magic_numbers qq ss values = true) :
    ∀ qq ss, (stepShift values q s sh).best = some (qq, ss) →
      check_magic_numbers qq ss values = true := by
  intro qq ss hb
  simp only [stepShift] at hb
  by_cases hc : check_magic_numbers q sh values
  · rw [if_pos hc] at hb
    by_cases hm : max_byte q sh values < s.bestMax
    · rw [if_pos hm] at hb
      simp only [Option.some.injEq, Prod.mk.injEq] at hb
      rw [← hb.1, ← hb.2]
      exact hc
    · rw [if_neg hm] at hb
      exact h qq ss hb
  · rw [if_neg hc] at hb
    exact h qq ss hb

theorem foldl_stepShift_inv (values q : List Nat) :
    ∀ (l : List Nat) (s : SearchState),
    (∀ qq ss, s.best = some (qq, ss) → check_magic_numbers qq ss values = true) →
    ∀ qq ss, (l.foldl (stepShift values q) s).best = some (qq, ss) →
      check_magic_numbers qq ss values = true := by
  intro l
  induction l with
  | nil => intro s h; exact h
  | cons sh l ih =>
    intro s h
    rw [List.foldl_cons]
    exact ih _ (stepShift_inv values q s sh h)

theorem searchGo_inv (values : List Nat) (stream : Nat → List Nat) (maxAttempts : Nat) :
    ∀ (fuel iter attempts : Nat) (s : SearchState),
    (∀ qq ss, s.best = some (qq, ss) → check_magic_numbers qq ss values = true) →
    ∀ qq ss, (searchGo values stream maxAttempts fuel iter attempts s).1.best = some (qq, ss) →
      check_magic_numbers qq ss values = true := by
  intro fuel
  induction fuel with
  | zero => intro iter attempts s h; exact h
  | succ fuel ih =>
    intro iter attempts s h
    simp only [searchGo]
    by_cases hlt : attempts < maxAttempts
    · rw [if_pos hlt]
      refine ih _ _ _ (fun qq ss hb => ?_)
      refine foldl_stepShift_inv values (stream iter) shiftList s h qq ss ?_
      rwa [stepMultiplier] at hb
    · rw [if_neg hlt]
      exact h

theorem chain_gt_concat {a b : Nat} {l : List Nat} (h : List.Chain (· > ·) a l)
    (hb : l.getLastD a > b) : List.Chain (· > ·) a (l ++ [b]) := by
  induction l generalizing a with
  | nil => exact List.Chain.cons hb List.Chain.nil
  | cons c l ih =>
    cases h with
    | cons hac hcl =>
      rw [List.cons_append]
      exact List.Chain.cons hac (ih hcl (by rwa [List.getLastD_cons] at hb))

theorem stepShift_trace (values q : List Nat) (s : SearchState) (sh : Nat)
    (h : List.Chain (· > ·) 255 s.trace ∧ s.trace.getLastD 255 = s.bestMax) :
    List.Chain (· > ·) 255 (stepShift values q s sh).trace ∧
      ((stepShift values q s sh).trace).getLastD 255 = (stepShift values q s sh).bestMax := by
  simp only [stepShift]
  by_cases hc : check_magic_numbers q sh values
  · rw [if_pos hc]
    by_cases hm : max_byte q sh values < s.bestMax
    · rw [if_pos hm]
      refine ⟨chain_gt_concat h.1 (by rw [h.2]; exact hm), List.getLastD_concat _ _ _⟩
    · rw [if_neg hm]
      exact h
  · rw [if_neg hc]
    exact h

theorem foldl_stepShift_trace (values q : List Nat) :
    ∀ (l : List Nat) (s : SearchState),
    (List.Chain (· > ·) 255 s.trace ∧ s.trace.getLastD 255 = s.bestMax) →
    List.Chain (· > ·) 255 (l.foldl (stepShift values q) s).trace ∧
      ((l.foldl (stepShift values q) s).trace).getLastD 255 =
        (l.foldl (stepShift values q) s).bestMax := by
  intro l
  induction l with
  | nil => intro s h; exact h
  | cons sh l ih =>
    intro s h
    rw [List.foldl_cons]
    exact ih _ (stepShift_trace values q s sh h)

theorem searchGo_trace (values : List Nat) (stream : Nat → List Nat) (maxAttempts : Nat) :
    ∀ (fuel iter attempts : Nat) (s : SearchState),
    (List.Chain (· > ·) 255 s.trace ∧ s.trace.getLastD 255 = s.bestMax) →
    List.Chain (· > ·) 255 (searchGo values stream maxAttempts fuel iter attempts s).1.trace ∧
      ((searchGo values stream maxAttempts fuel iter attempts s).1.trace).getLastD 255 =
        (searchGo values stream maxAttempts fuel iter attempts s).1.bestMax := by
  intro fuel
  induction fuel with
  | zero => intro iter attempts s h; exact h
  | succ fuel ih =>
    intro iter attempts s h
    simp only [searchGo]
    by_cases hlt : attempts < maxAttempts
    · rw [if_pos hlt]
      refine ih _ _ _ ?_
      rw [stepMultiplier]
      exact foldl_stepShift_trace values (stream iter) shiftList s h
    · rw [if_neg hlt]
      exact h

theorem searchGo_attempts (values : List Nat) (stream : Nat → List Nat) (maxAttempts : Nat) :
    ∀ (fuel iter attempts : Nat) (s : SearchState), maxAttempts - attempts ≤ fuel →
    (searchGo values stream maxAttempts fuel iter attempts s).2 =
      attempts + 32 * ((maxAttempts - attempts + 31) / 32) := by
  intro fuel
  induction fuel with
  | zero =>
    intro iter attempts s h
    have h0 : maxAttempts - attempts = 0 := by omega
    rw [h0]
    show attempts = attempts + 32 * ((0 + 31) / 32)
    norm_num
  | succ fuel ih =>
    intro iter attempts s h
    simp only [searchGo]
    by_cases hlt : attempts < maxAttempts
    · rw [if_pos hlt, ih _ _ _ (by omega)]
      omega
    · rw [if_neg hlt]
      have h0 : maxAttempts - attempts = 0 := by omega
      rw [h0]
      show attempts = attempts + 32 * ((0 + 31) / 32)
      norm_num

theorem searchAttempts_helper (values : List Nat) (stream : Nat → List Nat) (maxAttempts : Nat) :
    searchAttempts values stream maxAttempts = 32 * ((maxAttempts + 31) / 32) := by
  rw [searchAttempts, searchGo_attempts values stream maxAttempts maxAttempts 0 0 _ (by omega)]
  omega

/-! ### When does the search return no solution? -/

theorem stepShift_none (values q : List Nat) (s : SearchState) (sh : Nat)
    (hnone : s.best = none) :
    ((stepShift values q s sh).best = none ↔
      ¬(check_magic_numbers q sh values = true ∧ max_byte q sh values < s.bestMax)) ∧
    (¬(check_magic_numbers q sh values = true ∧ max_byte q sh values < s.bestMax) →
      stepShift values q s sh = s) := by
  simp only [stepShift]
  by_cases hc : check_magic_numbers q sh values
  · rw [if_pos hc]
    by_cases hm : max_byte q sh values < s.bestMax
    · rw [if_pos hm]
      exact ⟨by simp [hc, hm], fun hn => absurd ⟨hc, hm⟩ hn⟩
    · rw [if_neg hm]
      exact ⟨by simp [hnone, hm], fun _ => rfl⟩
  · rw [if_neg hc]
    exact ⟨by simp [hnone, hc], fun _ => rfl⟩

theorem stepShift_none_of (values q : List Nat) (s : SearchState) (sh : Nat)
    (h : (stepShift values q s sh).best = none) : s.best = none := by
  simp only [stepShift] at h
  by_cases hc : check_magic_numbers q sh values
  · rw [if_pos hc] at h
    by_cases hm : max_byte q sh values < s.bestMax
    · rw [if_pos hm] at h
      simp at h
    · rwa [if_neg hm] at h
  · rwa [if_neg hc] at h

theorem foldl_stepShift_none_of (values q : List Nat) :
    ∀ (l : List Nat) (s : SearchState),
    (l.foldl (stepShift values q) s).best = none → s.best = none := by
  intro l
  induction l with
  | nil => intro s h; exact h
  | cons sh l ih =>
    intro s h
    rw [List.foldl_cons] at h
    exact stepShift_none_of _ _ _ _ (ih _ h)

theorem foldl_stepShift_none (values q : List Nat) :
    ∀ (l : List Nat) (s : SearchState), s.best = none →
    (((l.foldl (stepShift values q) s).best = none ↔
      ∀ sh ∈ l, ¬(check_magic_numbers q sh values = true ∧
        max_byte q sh values < s.bestMax)) ∧
     ((l.foldl (stepShift values q) s).best = none → l.foldl (stepShift values q) s = s)) := by
  intro l
  induction l with
  | nil => intro s h; exact ⟨by simp [h], fun _ => rfl⟩
  | cons sh l ih =>
    intro s hnone
    rw [List.foldl_cons]
    by_cases hcond : check_magic_numbers q sh values = true ∧ max_byte q sh values < s.bestMax
    · have hsome : (stepShift values q s sh).best = some (q, sh) := by
        simp only [stepShift, if_pos hcond.1, if_pos hcond.2]
      constructor
      · constructor
        · intro hfin
          have hpre := foldl_stepShift_none_of values q l _ hfin
          rw [hsome] at hpre
          exact absurd hpre (by simp)
        · intro hall
          exact absurd hcond (hall sh (List.mem_cons_self _ _))
      · intro hfin
        have hpre := foldl_stepShift_none_of values q l _ hfin
        rw [hsome] at hpre
        exact absurd hpre (by simp)
    · have heq : stepShift values q s sh = s := (stepShift_none values q s sh hnone).2 hcond
      rw [heq]
      obtain ⟨ihiff, iheq⟩ := ih s hnone
      refine ⟨?_, iheq⟩
      rw [ihiff]
      constructor
      · intro hall sh2 hsh2
        rcases List.mem_cons.mp hsh2 with he | hm
        · rw [he]; exact hcond
        · exact hall sh2 hm
      · intro hall sh2 hm
        exact hall sh2 (List.mem_cons_of_mem _ hm)

theorem searchGo_none_of (values : List Nat) (stream : Nat → List Nat) (maxAttempts : Nat) :
    ∀ (fuel iter attempts : Nat) (s : SearchState),
    (searchGo values stream maxAttempts fuel iter attempts s).1.best = none → s.best = none := by
  intro fuel
  induction fuel with
  | zero => intro _ _ s h; exact h
  | succ fuel ih =>
    intro iter attempts s h
    simp only [searchGo] at h
    by_cases hlt : attempts < maxAttempts
    · rw [if_pos hlt] at h
      have h2 := ih _ _ _ h
      rw [stepMultiplier] at h2
      exact foldl_stepShift_none_of _ _ _ _ h2
    · rwa [if_neg hlt] at h

theorem searchGo_none (values : List Nat) (stream : Nat → List Nat) (maxAttempts : Nat) :
    ∀ (fuel iter attempts : Nat) (s : SearchState), s.best = none →
      maxAttempts - attempts ≤ fuel →
    ((searchGo values stream maxAttempts fuel iter attempts s).1.best = none ↔
      ∀ k, iter ≤ k → k < iter + (maxAttempts - attempts + 31) / 32 →
        ∀ sh ∈ shiftList, ¬(check_magic_numbers (stream k) sh values = true ∧
          max_byte (stream k) sh values < s.bestMax)) ∧
    ((searchGo values stream maxAttempts fuel iter attempts s).1.best = none →
      (searchGo values stream maxAttempts fuel iter attempts s).1 = s) := by
  intro fuel
  induction fuel with
  | zero =>
    intro iter attempts s hnone hle
    have h0 : maxAttempts - attempts = 0 := by omega
    rw [h0]
    exact ⟨⟨fun _ k h1 h2 => absurd h2 (by omega), fun _ => hnone⟩, fun _ => rfl⟩
  | succ fuel ih =>
    intro iter attempts s hnone hle
    simp only [searchGo]
    by_cases hlt : attempts < maxAttempts
    · rw [if_pos hlt]
      set s2 := stepMultiplier values (stream iter) s with hs2
      by_cases hb : s2.best = none
      · have hbf : (shiftList.foldl (stepShift values (stream iter)) s).best = none := by
          rw [hs2, stepMultiplier] at hb
          exact hb
        have hs2eq : s2 = s := by
          rw [hs2, stepMultiplier]
          exact (foldl_stepShift_none values (stream iter) shiftList s hnone).2 hbf
        rw [hs2eq]
        obtain ⟨ihiff, iheq⟩ := ih (iter + 1) (attempts + 32) s hnone (by omega)
        have hhead : ∀ sh ∈ shiftList,
            ¬(check_magic_numbers (stream iter) sh values = true ∧
              max_byte (stream iter) sh values < s.bestMax) :=
          (foldl_stepShift_none values (stream iter) shiftList s hnone).1.mp hbf
        refine ⟨?_, iheq⟩
        rw [ihiff]
        constructor
        · intro hall k h1 h2
          by_cases hk : k = iter
          · rw [hk]; exact hhead
          · exact hall k (by omega) (by omega)
        · intro hall k h1 h2
          exact hall k (by omega) (by omega)
      · have hnone2 : (∀ k, iter ≤ k → k < iter + (maxAttempts - attempts + 31) / 32 →
            ∀ sh ∈ shiftList, ¬(check_magic_numbers (stream k) sh values = true ∧
              max_byte (stream k) sh values < s.bestMax)) → s2.best = none := by
          intro hall
          rw [hs2, stepMultiplier]
          refine (foldl_stepShift_none values (stream iter) shiftList s hnone).1.mpr ?_
          exact fun sh hsh => hall iter (le_refl _) (by omega) sh hsh
        refine ⟨⟨fun hfin =>
            absurd (searchGo_none_of values stream maxAttempts fuel (iter + 1) (attempts + 32)
              s2 hfin) hb,
          fun hall => absurd (hnone2 hall) hb⟩,
          fun hfin =>
            absurd (searchGo_none_of values stream maxAttempts fuel (iter + 1) (attempts + 32)
              s2 hfin) hb⟩
    · rw [if_neg hlt]
      have h0 : maxAttempts - attempts = 0 := by omega
      rw [h0]
      exact ⟨⟨fun _ k h1 h2 => absurd h2 (by omega), fun _ => hnone⟩, fun _ => rfl⟩

theorem find_none_iff (values : List Nat) (stream : Nat → List Nat) (maxAttempts : Nat) :
    find_magic_numbers values stream maxAttempts = none ↔
      ∀ k < (maxAttempts + 31) / 32, ∀ sh ∈ shiftList,
        ¬(check_magic_numbers (stream k) sh values = true ∧
          max_byte (stream k) sh values < 255) := by
  rw [find_magic_numbers,
    (searchGo_none values stream maxAttempts maxAttempts 0 0 ⟨none, 255, []⟩ rfl (by omega)).1]
  constructor
  · intro hh k hk sh hsh
    have h2 := hh k (Nat.zero_le k) (by omega) sh hsh
    simpa using h2
  · intro hh k hk1 hk2 sh hsh
    have h2 := hh k (by omega) sh hsh
    simpa using h2

/-! ### Dispatch table layout -/

theorem dispatcherOffsets_eq (pairs : List (Nat × Nat)) (db : Nat → Nat) :
    dispatcherOffsets pairs db =
      ((List.range 256).filter fun i => (index_to_address pairs db i).isSome).map
        fun i => (78 + i * 6, i, (index_to_selector pairs db i).getD 0,
          (index_to_address pairs db i).getD 0) := by
  rw [dispatcherOffsets]
  have key : ∀ (l : List Nat), (l.filterMap fun i => match index_to_address pairs db i with
      | some addr => some (78 + i * 6, i, (index_to_selector pairs db i).getD 0, addr)
      | none => none) =
      (l.filter fun i => (index_to_address pairs db i).isSome).map
        fun i => (78 + i * 6, i, (index_to_selector pairs db i).getD 0,
          (index_to_address pairs db i).getD 0) := by
    intro l
    induction l with
    | nil => rfl
    | cons i l ih =>
      rw [List.filterMap_cons, List.filter_cons]
      rcases hma : index_to_address pairs db i with _ | addr
      · simp only [hma, Option.isSome_none, Bool.false_eq_true, if_false, ih]
      · simp only [hma, Option.isSome_some, if_true, List.map_cons, Option.getD_some, ih]
  exact key _

theorem dispatcherOffsets_form (pairs : List (Nat × Nat)) (db : Nat → Nat) :
    ∀ e ∈ dispatcherOffsets pairs db, e.1 = 78 + e.2.1 * 6 ∧ e.2.1 < 256 := by
  intro e he
  rw [dispatcherOffsets_eq] at he
  rcases List.mem_map.mp he with ⟨i, hi, hei⟩
  have hi256 : i < 256 := List.mem_range.mp (List.mem_of_mem_filter hi)
  rw [← hei]
  exact ⟨rfl, hi256⟩

theorem dispatcherOffsets_bytes_sorted (pairs : List (Nat × Nat)) (db : Nat → Nat) :
    (dispatcherOffsets pairs db).Pairwise fun e1 e2 => e1.2.1 < e2.2.1 := by
  rw [dispatcherOffsets_eq]
  rw [List.pairwise_map]
  exact (List.pairwise_lt_range 256).filter _

theorem dispatcherOffsets_offsets_sorted (pairs : List (Nat × Nat)) (db : Nat → Nat) :
    (dispatcherOffsets pairs db).Pairwise fun e1 e2 => e1.1 < e2.1 := by
  have hb := dispatcherOffsets_bytes_sorted pairs db
  have hf := dispatcherOffsets_form pairs db
  refine List.Pairwise.imp_of_mem ?_ hb
  intro e1 e2 h1 h2 hlt
  rw [(hf e1 h1).1, (hf e2 h2).1]
  omega

theorem sortedOffsets_eq (pairs : List (Nat × Nat)) (db : Nat → Nat) :
    sortedOffsets pairs db = dispatcherOffsets pairs db := by
  rw [sortedOffsets]
  apply List.mergeSort_of_sorted
  refine (dispatcherOffsets_offsets_sorted pairs db).imp ?_
  intro e1 e2 h
  exact decide_eq_true (Nat.le_of_lt h)

theorem occupiedByte_iff (entries : List (Nat × Nat × Nat × Nat)) (x : Nat) :
    occupiedByte entries x = true ↔ ∃ e ∈ entries, e.2.1 = x := by
  rw [occupiedByte, List.any_eq_true]
  simp

theorem inGapRanges_append (g1 g2 : List (Nat × Nat)) (x : Nat) :
    inGapRanges (g1 ++ g2) x = (inGapRanges g1 x || inGapRanges g2 x) := by
  rw [inGapRanges, inGapRanges, inGapRanges, List.any_append]

theorem gapRanges_covered (entries : List (Nat × Nat × Nat × Nat)) :
    ∀ (c : Nat), (∀ e ∈ entries, e.1 = 78 + e.2.1 * 6) →
    entries.Pairwise (fun e1 e2 => e1.2.1 < e2.2.1) →
    (∀ e ∈ entries, c ≤ e.2.1) →
    ∀ x, inGapRanges (gapRanges (78 + 6 * c) entries) x = true ↔
      (c ≤ x ∧ occupiedByte entries x = false ∧ ∃ e ∈ entries, x ≤ e.2.1) := by
  induction entries with
  | nil =>
    intro c _ _ _ x
    simp [gapRanges, inGapRanges, occupiedByte]
  | cons e rest ih =>
    intro c hform hsorted hge x
    have he1 : e.1 = 78 + e.2.1 * 6 := hform e (by simp)
    have hec : c ≤ e.2.1 := hge e (by simp)
    have hrest_gt : ∀ e2 ∈ rest, e.2.1 < e2.2.1 := (List.pairwise_cons.mp hsorted).1
    rw [gapRanges, inGapRanges_append, Bool.or_eq_true]
    have hstep : e.1 + 6 = 78 + 6 * (e.2.1 + 1) := by omega
    rw [hstep]
    have hhead : inGapRanges (if 78 + 6 * c < e.1 then [(78 + 6 * c, e.1)] else []) x = true ↔
        (c ≤ x ∧ x < e.2.1) := by
      by_cases hcb : 78 + 6 * c < e.1
      · rw [if_pos hcb, inGapRanges]
        simp only [List.any_cons, List.any_nil, Bool.or_false, Bool.and_eq_true,
          decide_eq_true_eq]
        omega
      · rw [if_neg hcb]
        simp only [inGapRanges, List.any_nil, Bool.false_eq_true, false_iff]
        omega
    have hihx := ih (e.2.1 + 1) (fun e2 h2 => hform e2 (by simp [h2]))
      (List.pairwise_cons.mp hsorted).2 (fun e2 h2 => hrest_gt e2 h2) x
    rw [hhead, hihx]
    have hocc : occupiedByte (e :: rest) x = false ↔
        (e.2.1 ≠ x ∧ occupiedByte rest x = false) := by
      rw [occupiedByte, List.any_cons, Bool.or_eq_false_iff]
      rw [occupiedByte]
      simp
    rw [hocc]
    constructor
    · rintro (⟨hcx, hxB⟩ | ⟨hBx, hoccr, e2, he2, hxe2⟩)
      · refine ⟨hcx, ⟨by omega, ?_⟩, ⟨e, by simp, by omega⟩⟩
        rw [← Bool.not_eq_true, occupiedByte_iff]
        rintro ⟨e2, he2, he2x⟩
        have := hrest_gt e2 he2
        omega
      · exact ⟨by omega, ⟨by omega, hoccr⟩, ⟨e2, by simp [he2], hxe2⟩⟩
    · rintro ⟨hcx, ⟨hBne, hoccr⟩, e2, he2, hxe2⟩
      by_cases hxB : x < e.2.1
      · exact Or.inl ⟨hcx, hxB⟩
      · refine Or.inr ⟨by omega, hoccr, ?_⟩
        rcases List.mem_cons.mp he2 with he | hm
        · rw [he] at hxe2
          omega
        · exact ⟨e2, hm, hxe2⟩

/-! ### Claim theorems -/

/-- C1: every (multiplier, shift) pair returned as a Solution by
find_magic_numbers passes check_magic_numbers on the same selector set — the
induced byte mapping is injective over the selectors; the search never
returns a pair that fails its own collision check. -/
theorem claim_C1_search_sound (values : List Nat) (stream : Nat → List Nat)
    (maxAttempts : Nat) (q : List Nat) (shift : Nat)
    (h : find_magic_numbers values stream maxAttempts = some (q, shift)) :
    check_magic_numbers q shift values = true ∧
      (values.map (derivedByte q shift)).Nodup := by
  have hc := searchGo_inv values stream maxAttempts maxAttempts 0 0 ⟨none, 255, []⟩
    (fun qq ss hb => by simp at hb) q shift h
  exact ⟨hc, (check_magic_numbers_iff_nodup q shift values).mp hc⟩

set_option maxRecDepth 100000 in
theorem claim_C1_witness :
    check_magic_numbers (List.replicate 32 0) 0 [] = true ∧
      (([] : List Nat).map (derivedByte (List.replicate 32 0) 0)).Nodup :=
  claim_C1_search_sound [] (fun _ => List.replicate 32 0) 1 (List.replicate 32 0) 0 (by decide)

/-- C2: mul_256 equals arbitrary-precision multiplication reduced modulo
2^256, re-encoded as 32 little-endian bytes; it is total and deterministic
(a Lean function) with no error conditions. -/
theorem claim_C2_mul_256 (a b : List Nat) (ha : Bytes32 a) (hb : Bytes32 b) :
    mul_256 a b = natToBytes 32 ((bytesToNat a * bytesToNat b) % 2 ^ 256) :=
  mul_256_correct a b ha hb

set_option maxRecDepth 100000 in
theorem claim_C2_witness :
    mul_256 (List.replicate 32 255) (List.replicate 32 255) =
      natToBytes 32 ((bytesToNat (List.replicate 32 255) *
        bytesToNat (List.replicate 32 255)) % 2 ^ 256) :=
  claim_C2_mul_256 _ _ (by decide) (by decide)

/-- C3: for every 32-byte value and every shift amount in [0, 255] (including
non-multiples of 8), shr_256 equals the arbitrary-precision logical right
shift with zero fill, re-encoded as 32 little-endian bytes. -/
theorem claim_C3_shr_256 (val : List Nat) (n : Nat) (hval : Bytes32 val) (_hn : n ≤ 255) :
    shr_256 val n = natToBytes 32 (bytesToNat val / 2 ^ n) :=
  shr_256_correct val n hval

set_option maxRecDepth 100000 in
theorem claim_C3_witness :
    shr_256 (u32_to_256 305419896) 13 =
      natToBytes 32 (bytesToNat (u32_to_256 305419896) / 2 ^ 13) :=
  claim_C3_shr_256 (u32_to_256 305419896) 13 (by decide) (by norm_num)

set_option maxRecDepth 100000 in
/-- C4 counterexample: with maxAttempts = 1 the loop performs 32 elementary
evaluations (the whole shift sweep of the first multiplier), not exactly 1. -/
theorem claim_C4_counterexample :
    searchAttempts [] (fun _ => List.replicate 32 0) 1 = 32 ∧ (32 : Nat) ≠ 1 :=
  ⟨by decide, by decide⟩

/-- C4 (amended): the number of elementary (multiplier, shift) evaluations is
the least multiple of 32 that is ≥ maxAttempts, 32 * ⌈maxAttempts/32⌉: the
budget is checked only between multipliers and each multiplier consumes 32
units (one per shift), so ⌈maxAttempts/32⌉ distinct multipliers are drawn. -/
theorem claim_C4_amended (values : List Nat) (stream : Nat → List Nat) (maxAttempts : Nat) :
    searchAttempts values stream maxAttempts = 32 * ((maxAttempts + 31) / 32) :=
  searchAttempts_helper values stream maxAttempts

set_option maxRecDepth 100000 in
/-- C5 counterexample: with the single selector 1 and the all-0xFF multiplier
every evaluated pair is collision-free (one selector cannot collide; shift 0
is evaluated since it is in the sweep), yet the search returns none: the
derived maximum byte is 255, which never beats the initial bound 255. -/
theorem claim_C5_counterexample :
    find_magic_numbers [1] (fun _ => List.replicate 32 255) 1 = none ∧
      check_magic_numbers (List.replicate 32 255) 0 [1] = true ∧ (0 : Nat) ∈ shiftList :=
  ⟨by decide, by decide, by decide⟩

/-- C5 (amended): find_magic_numbers returns none iff no evaluated
(multiplier, shift) pair is collision-free with maximum byte strictly below
the initial bound 255; the evaluated multipliers are stream 0 ..
stream (⌈maxAttempts/32⌉ - 1), each swept over all 32 shifts. In particular
maxAttempts = 0 returns none immediately after zero evaluations. -/
theorem claim_C5_amended (values : List Nat) (stream : Nat → List Nat) (maxAttempts : Nat) :
    (find_magic_numbers values stream maxAttempts = none ↔
      ∀ k < (maxAttempts + 31) / 32, ∀ sh ∈ shiftList,
        ¬(check_magic_numbers (stream k) sh values = true ∧
          max_byte (stream k) sh values < 255)) ∧
    (find_magic_numbers values stream 0 = none ∧ searchAttempts values stream 0 = 0) := by
  refine ⟨find_none_iff values stream maxAttempts, ?_, ?_⟩
  · rw [find_none_iff]
    intro k hk
    exact absurd hk (by omega)
  · rw [searchAttempts_helper]

/-- C6: across the best-so-far updates recorded during one run, the logged
maximum byte values are strictly decreasing, starting strictly below the
initial bound 255 — a candidate that ties or exceeds the current best never
replaces it. -/
theorem claim_C6_trace (values : List Nat) (stream : Nat → List Nat) (maxAttempts : Nat) :
    List.Chain (· > ·) 255 (searchTrace values stream maxAttempts) := by
  rw [searchTrace]
  exact (searchGo_trace values stream maxAttempts maxAttempts 0 0 ⟨none, 255, []⟩
    ⟨List.Chain.nil, rfl⟩).1

set_option maxRecDepth 100000 in
/-- C7 counterexample: with a single pair whose selector maps to byte 0, byte
value 1 (which is in [0, 255]) is neither occupied nor inside any reported
gap range — the emitted layout does not partition [0, 255]. -/
theorem claim_C7_counterexample :
    occupiedByte (sortedOffsets [(0, 100)] (fun x => x)) 1 = false ∧
      inGapRanges (gapRanges 78 (sortedOffsets [(0, 100)] (fun x => x))) 1 = false ∧
      (1 : Nat) ≤ 255 := by
  rw [sortedOffsets_eq]
  exact ⟨by decide, by decide, by norm_num⟩

/-- C7 (amended): every emitted entry has offset = 78 + byteValue * 6,
offsets are strictly increasing (hence unique and sorted), and the occupied
byte values together with the reported gap ranges exactly partition
[0, B] where B is the largest occupied byte value — byte values above B are
silently skipped (no trailing gap is reported). -/
theorem claim_C7_amended (pairs : List (Nat × Nat)) (db : Nat → Nat) :
    (∀ e ∈ sortedOffsets pairs db, e.1 = 78 + e.2.1 * 6) ∧
    (sortedOffsets pairs db).Pairwise (fun e1 e2 => e1.1 < e2.1) ∧
    (∀ x : Nat, (occupiedByte (sortedOffsets pairs db) x = true ∨
        inGapRanges (gapRanges 78 (sortedOffsets pairs db)) x = true) ↔
      ∃ e ∈ sortedOffsets pairs db, x ≤ e.2.1) ∧
    (∀ x : Nat, ¬(occupiedByte (sortedOffsets pairs db) x = true ∧
        inGapRanges (gapRanges 78 (sortedOffsets pairs db)) x = true)) := by
  rw [sortedOffsets_eq]
  have hform : ∀ e ∈ dispatcherOffsets pairs db, e.1 = 78 + e.2.1 * 6 :=
    fun e he => (dispatcherOffsets_form pairs db e he).1
  have hsorted := dispatcherOffsets_bytes_sorted pairs db
  have hcov := gapRanges_covered (dispatcherOffsets pairs db) 0 hform hsorted
    (fun _ _ => Nat.zero_le _)
  rw [show 78 + 6 * 0 = 78 from rfl] at hcov
  refine ⟨hform, dispatcherOffsets_offsets_sorted pairs db, ?_, ?_⟩
  · intro x
    constructor
    · rintro (hocc | hgap)
      · rcases (occupiedByte_iff _ _).mp hocc with ⟨e, he, hex⟩
        exact ⟨e, he, by omega⟩
      · exact ((hcov x).mp hgap).2.2
    · intro hex
      rcases Bool.eq_false_or_eq_true (occupiedByte (dispatcherOffsets pairs db) x) with ht | hf
      · exact Or.inl ht
      · exact Or.inr ((hcov x).mpr ⟨Nat.zero_le x, hf, hex⟩)
  · rintro x ⟨hocc, hgap⟩
    have hf := ((hcov x).mp hgap).2.1
    rw [hocc] at hf
    exact Bool.noConfusion hf

/-- C8: with a duplicated selector in the input list, check_magic_numbers is
false for every (multiplier, shift) pair, so the search deterministically
exhausts its full budget and returns none; the core performs no validation
of selector distinctness. -/
theorem claim_C8_duplicates (values : List Nat) (h : ¬values.Nodup) :
    (∀ q shift, check_magic_numbers q shift values = false) ∧
    (∀ (stream : Nat → List Nat) (maxAttempts : Nat),
      find_magic_numbers values stream maxAttempts = none ∧
      searchAttempts values stream maxAttempts = 32 * ((maxAttempts + 31) / 32)) := by
  refine ⟨check_magic_numbers_of_dup values h, ?_⟩
  intro stream maxAttempts
  refine ⟨?_, searchAttempts_helper values stream maxAttempts⟩
  rw [find_none_iff]
  intro k hk sh hsh hcond
  rw [check_magic_numbers_of_dup values h] at hcond
  exact Bool.noConfusion hcond.1

theorem claim_C8_witness :
    ¬([5, 5] : List Nat).Nodup ∧
      check_magic_numbers (List.replicate 32 0) 0 [5, 5] = false ∧
      find_magic_numbers [5, 5] (fun _ => List.replicate 32 0) 1 = none := by
  have h := claim_C8_duplicates [5, 5] (by decide)
  exact ⟨by decide, h.1 _ 0, (h.2 (fun _ => List.replicate 32 0) 1).1⟩

/-- C9: with the all-zero-bytes multiplier every selector derives byte 0 at
every shift, so any selector list with at least two entries is classified as
a collision; the result does not depend on the selectors after the second,
exercising the short-circuit path. -/
theorem claim_C9_zero_multiplier (shift x y : Nat) (rest : List Nat) :
    derivedByte (List.replicate 32 0) shift x = 0 ∧
      check_magic_numbers (List.replicate 32 0) shift (x :: y :: rest) = false := by
  refine ⟨derivedByte_zero_multiplier shift x, ?_⟩
  rw [check_magic_numbers]
  simp only [checkFrom, derivedByte_zero_multiplier]
  simp

/-- C10: shr_256 is total for every 32-byte value and every shift amount —
the result always has 32 bytes, and for n ≥ 256 (where every source index is
guarded out of range) it is the all-zero 32-byte value. -/
theorem claim_C10_shr_total (val : List Nat) (n : Nat) (hval : Bytes32 val) :
    (shr_256 val n).length = 32 ∧ (256 ≤ n → shr_256 val n = List.replicate 32 0) := by
  constructor
  · rw [shr_256, List.length_map, List.length_range]
  · intro hn
    rw [shr_256_correct val n hval]
    have hz : bytesToNat val / 2 ^ n = 0 := by
      apply Nat.div_eq_of_lt
      have hlt : bytesToNat val < 256 ^ 32 := by
        have h := bytesToNat_lt val hval.2
        rwa [hval.1] at h
      calc bytesToNat val < 256 ^ 32 := hlt
        _ = 2 ^ 256 := by norm_num
        _ ≤ 2 ^ n := Nat.pow_le_pow_right (by norm_num) hn
    rw [hz]
    decide

theorem claim_C10_witness :
    (shr_256 (u32_to_256 5) 300).length = 32 ∧
      shr_256 (u32_to_256 5) 300 = List.replicate 32 0 := by
  have h := claim_C10_shr_total (u32_to_256 5) 300 (by decide)
  exact ⟨h.1, h.2 (by norm_num)⟩
